import Mathlib

/-!
Verification development for the GibRAM knowledge-graph indexing and
retrieval engine, against its Python SDK sources.

The repository sources under `sdk/python` contain two concrete capability
implementations (`SimpleRegexExtractor`, `DummyEmbedder` in
`examples/custom_implementation.py`), plus integration tests and examples
that exercise the engine through the `GibRAMIndexer` client surface.  The
engine itself (session construction, chunker, graph builder, query engine)
is not among the sources; those parts are modelled from the specification
and are marked `Modelled from the spec:` in their doc comments.
-/

namespace GibRAM

/-! ### DummyEmbedder (examples/custom_implementation.py, lines 67-104)

The Python code hashes each text with `hashlib.sha256`, walks the digest in
4-byte chunks (`range(0, min(len(hash_bytes), dimensions * 4), 4)`), decodes
each chunk with `struct.unpack("f", chunk.ljust(4, b"\x00"))`, pads with
`0.0` up to `dimensions`, and truncates to `dimensions`.  `hashlib.sha256`
and `struct.unpack` are Python standard-library collaborators, not
repository code, so they are abstracted as parameters: `hash` stands for
the map from a text to its digest's byte list, `unpack` for the decoding of
one 4-byte chunk into a vector component, and `zero` for the literal `0.0`.
Every theorem below holds for all values of these parameters, hence in
particular for SHA-256 and IEEE-754 decoding.  `dimensions` is modelled as
a natural number (the constructor's intended domain; the default is 1536).
-/

structure DummyEmbedder where
  dimensions : Nat
deriving DecidableEq

/-- `chunk.ljust(4, b"\x00")`: pad a byte list on the right with zeros up to
length 4. -/
def ljust4 (bs : List Nat) : List Nat :=
  bs ++ List.replicate (4 - bs.length) 0

/-- The body of the per-text loop of `DummyEmbedder.embed`: build the vector
from the digest bytes, pad with `zero` to `dimensions`, truncate to
`dimensions`. -/
def DummyEmbedder.embedVec {α : Type} (unpack : List Nat → α) (zero : α)
    (e : DummyEmbedder) (hashBytes : List Nat) : List α :=
  let bound := min hashBytes.length (e.dimensions * 4)
  let vec := (List.range ((bound + 3) / 4)).map fun j =>
    unpack (ljust4 ((hashBytes.drop (4 * j)).take 4))
  (vec ++ List.replicate (e.dimensions - vec.length) zero).take e.dimensions

/-- `DummyEmbedder.embed`: one vector per input text, in input order. -/
def DummyEmbedder.embed {α : Type} (unpack : List Nat → α) (zero : α)
    (hash : String → List Nat) (e : DummyEmbedder) (texts : List String) :
    List (List α) :=
  texts.map fun t => e.embedVec unpack zero (hash t)

/-- `DummyEmbedder.embed_single`: `self.embed([text])[0]`.  The `[0]`
subscript is modelled by `List.headI`; the batch `[text]` always produces a
one-element result, so the subscript never fails. -/
def DummyEmbedder.embed_single {α : Type} (unpack : List Nat → α) (zero : α)
    (hash : String → List Nat) (e : DummyEmbedder) (text : String) : List α :=
  (e.embed unpack zero hash [text]).headI

/-! ### SimpleRegexExtractor (examples/custom_implementation.py, lines 12-64)

The extractor runs two `re.findall` scans over the input text:
`\b([A-Z][a-z]+ [A-Z][a-z]+)\b` for person names and
`\b(1[0-9]{3}|20[0-9]{2})\b` for years, deduplicates each result with
`set(...)`, emits one `ExtractedEntity` per person and per year, and one
`ExtractedRelationship` per (person, year) pair whose members occur in the
text.  The regex engine is modelled directly: for these two patterns the
backtracking search coincides with deterministic maximal munch (each
repetition `[a-z]+` must be followed by a character no shorter prefix could
also be followed by), so matching is implemented as a left-to-right scan
that at each position attempts the maximal-munch match and otherwise
advances one character.  CPython's `set` iteration order is unspecified;
the model fixes one order via `List.dedup` (the claims do not depend on
the order, only on membership and the absence of duplicates). -/

structure ExtractedEntity where
  title : String
  type : String
  description : String
deriving DecidableEq

structure ExtractedRelationship where
  source_title : String
  target_title : String
  relationship_type : String
  description : String
  weight : ℚ
deriving DecidableEq

/-- `[A-Z]` (ASCII range, which is what the Python pattern denotes). -/
def isUpperAZ (c : Char) : Bool := 'A' ≤ c && c ≤ 'Z'

/-- `[a-z]`. -/
def isLowerAZ (c : Char) : Bool := 'a' ≤ c && c ≤ 'z'

/-- `[0-9]`. -/
def isDigit09 (c : Char) : Bool := '0' ≤ c && c ≤ '9'

/-- A word character for `\b` (`[A-Za-z0-9_]` plus unicode letters; the
model restricts to the character classes the claims exercise). -/
def isWordChar (c : Char) : Bool := c.isAlpha || c.isDigit || c = '_'

/-- Maximal-munch match of `[A-Z][a-z]+` at the head of the input.  On
success, returns the matched characters and the remaining input. -/
def matchNamePart : List Char → Option (List Char × List Char)
  | [] => none
  | c :: t =>
    if isUpperAZ c && !(t.takeWhile isLowerAZ).isEmpty then
      some (c :: t.takeWhile isLowerAZ, t.dropWhile isLowerAZ)
    else none

/-- Match of `\b([A-Z][a-z]+ [A-Z][a-z]+)\b` at the head of the input.
`prevWord` records whether the character before the current position is a
word character (for the leading `\b`; the first matched character is a word
character, so the boundary holds exactly when `prevWord` is false). -/
def matchPerson : Bool → List Char → Option (List Char × List Char)
  | true, _ => none
  | false, cs =>
    match matchNamePart cs with
    | none => none
    | some (m1, r1) =>
      match r1 with
      | [] => none
      | c :: t2 =>
        if c = ' ' then
          match matchNamePart t2 with
          | none => none
          | some (m2, r2) =>
            if r2.head?.all (fun ch => !(isWordChar ch)) then
              some (m1 ++ c :: m2, r2)
            else none
        else none

/-- Match of `\b(1[0-9]{3}|20[0-9]{2})\b` at the head of the input. -/
def matchYear : Bool → List Char → Option (List Char × List Char)
  | true, _ => none
  | false, c1 :: c2 :: c3 :: c4 :: rest =>
    if ((c1 = '1' && isDigit09 c2) || (c1 = '2' && c2 = '0')) &&
        isDigit09 c3 && isDigit09 c4 &&
        rest.head?.all (fun ch => !(isWordChar ch)) then
      some ([c1, c2, c3, c4], rest)
    else none
  | false, _ => none

/-- `re.findall` for a matcher: scan left to right; on a match, record it
and resume after it; otherwise advance one character.  The fuel argument
(instantiated with `length + 1`) only serves termination: every match
consumes at least one character. -/
def findAllAux (m : Bool → List Char → Option (List Char × List Char)) :
    Nat → Bool → List Char → List (List Char)
  | 0, _, _ => []
  | fuel + 1, prevWord, cs =>
    match cs with
    | [] => []
    | c :: t =>
      match m prevWord (c :: t) with
      | some (mt, rest) => mt :: findAllAux m fuel true rest
      | none => findAllAux m fuel (isWordChar c) t

/-- `set(re.findall(person_pattern, text))`, as a duplicate-free list. -/
def personTitles (text : String) : List String :=
  ((findAllAux matchPerson (text.data.length + 1) false text.data).map String.mk).dedup

/-- `set(re.findall(year_pattern, text))`, as a duplicate-free list. -/
def yearTitles (text : String) : List String :=
  ((findAllAux matchYear (text.data.length + 1) false text.data).map String.mk).dedup

/-- The relationship record appended for a (person, year) pair. -/
def mentionRel (p y : String) : ExtractedRelationship :=
  { source_title := p
    target_title := y
    relationship_type := "MENTIONED_IN"
    description := p ++ " mentioned in context of " ++ y
    weight := 1 / 2 }

/-- `SimpleRegexExtractor.extract`: person and year entities, then one
relationship per (person, year) pair subject to the `person in text and
year in text` containment test (modelled by list-infix containment). -/
def SimpleRegexExtractor.extract (text : String) :
    List ExtractedEntity × List ExtractedRelationship :=
  let persons := personTitles text
  let years := yearTitles text
  let entities :=
    (persons.map fun p =>
      { title := p, type := "Person", description := "Person mentioned: " ++ p }) ++
    (years.map fun y =>
      { title := y, type := "Year", description := "Year mentioned: " ++ y })
  let relationships := persons.flatMap fun p => years.filterMap fun y =>
    if p.data <:+: text.data ∧ y.data <:+: text.data then some (mentionRel p y)
    else none
  (entities, relationships)

/-- A concrete document text used to witness the extractor theorems. -/
def tEx : String := "Albert Einstein was born in 1879."

/-- The Person entity the extractor finds in `tEx`. -/
def epA : ExtractedEntity :=
  { title := "Albert Einstein"
    type := "Person"
    description := "Person mentioned: Albert Einstein" }

/-- The Year entity the extractor finds in `tEx`. -/
def eyA : ExtractedEntity :=
  { title := "1879", type := "Year", description := "Year mentioned: 1879" }

/-! ### Session data model and graph builder

The engine behind `GibRAMIndexer` is not among the repository sources (the
sources only contain its callers and integration tests), so the data model
and operations below are modelled from the specification (§3, §4.3, §6). -/

/-- Modelled from the spec: a resolved Entity (§3) — canonical identity
keyed by normalized (title, type), accumulated description, occurrence
count, embedding vector.  The embedding value type is a parameter `E`; the
set of source text-unit ids is not modelled (no claim concerns it). -/
structure Entity (E : Type) where
  title : String
  type : String
  description : String
  occurrence : Nat
  embedding : E
deriving DecidableEq

/-- Modelled from the spec: a TextUnit (§3) — id, document id, sequence
index, content, embedding vector (modelled as computed at creation). -/
structure TextUnit (E : Type) where
  id : Nat
  docId : Nat
  seqIndex : Nat
  content : String
  embedding : E
deriving DecidableEq

/-- Modelled from the spec: a Community (§3) — a set of entity ids plus a
generated summary and a numeric size. -/
structure Community where
  memberTitles : List String
  summary : String
  size : Nat
deriving DecidableEq

/-- Modelled from the spec: accumulated indexing statistics (§3, §6).  The
elapsed-time field is real time and is not modelled. -/
structure IndexStats where
  documents_indexed : Nat
  text_units_created : Nat
  entities_extracted : Nat
  relationships_extracted : Nat
  communities_detected : Nat
deriving DecidableEq

/-- Modelled from the spec: a Session (§3) — isolation boundary owning one
graph, one TextUnit store, communities, and statistics. -/
structure SessionState (E : Type) where
  sessionId : String
  entities : List (Entity E)
  textUnits : List (TextUnit E)
  communities : List Community
  stats : IndexStats
deriving DecidableEq

/-- Modelled from the spec: entity-title normalization (§4.3) — lower-case
and trim whitespace. -/
def normalizeTitle (s : String) : String := s.trim.toLower

/-- The identity key of a resolved entity: `(normalize(title), type)`. -/
def entKey {E : Type} (en : Entity E) : String × String :=
  (normalizeTitle en.title, en.type)

/-- The identity key an extraction resolves to. -/
def exKey (x : ExtractedEntity) : String × String :=
  (normalizeTitle x.title, x.type)

/-- Modelled from the spec: evidence accumulation (§4.3) — append the new
description, bounded to a maximum retained length, truncating the oldest
evidence first (here: keep the newest `maxLen` characters). -/
def appendEvidence (maxLen : Nat) (old new : String) : String :=
  let s := old ++ "\n" ++ new
  String.mk (s.data.drop (s.data.length - maxLen))

/-- Modelled from the spec: merging one extraction into an existing entity
with the same key (§4.3) — increment the occurrence count, append the new
description as evidence, recompute the embedding from the merged
description. -/
def mergeInto {E : Type} (embedFn : String → E) (maxLen : Nat)
    (en : Entity E) (x : ExtractedEntity) : Entity E :=
  let d := appendEvidence maxLen en.description x.description
  { en with description := d, occurrence := en.occurrence + 1, embedding := embedFn d }

/-- Modelled from the spec: the entity created for a first-seen key. -/
def freshEntity {E : Type} (embedFn : String → E) (x : ExtractedEntity) : Entity E :=
  { title := x.title
    type := x.type
    description := x.description
    occurrence := 1
    embedding := embedFn x.description }

/-- The first entity carrying a given identity key, if any (the
read-before-write lookup of the graph builder). -/
def findByKey {E : Type} : List (Entity E) → String × String → Option (Entity E)
  | [], _ => none
  | en :: t, k => if entKey en = k then some en else findByKey t k

/-- Modelled from the spec: the graph-builder upsert of one extracted
entity (§4.3) — on key collision update the existing entity, otherwise
insert a fresh one. -/
def upsertEntity {E : Type} (embedFn : String → E) (maxLen : Nat)
    (g : List (Entity E)) (x : ExtractedEntity) : List (Entity E) :=
  if (findByKey g (exKey x)).isSome then
    g.map fun en => if entKey en = exKey x then mergeInto embedFn maxLen en x else en
  else g ++ [freshEntity embedFn x]

/-- Modelled from the spec: merging a batch of extracted entities into the
session graph (§4.3); the merge step is serialized per session (§5), so it
is a sequential fold. -/
def mergeEntities {E : Type} (embedFn : String → E) (maxLen : Nat)
    (g : List (Entity E)) (xs : List ExtractedEntity) : List (Entity E) :=
  xs.foldl (upsertEntity embedFn maxLen) g

/-- The occurrence count recorded for a key (0 if the key is absent). -/
def occOf {E : Type} (g : List (Entity E)) (k : String × String) : Nat :=
  ((findByKey g k).map Entity.occurrence).getD 0

/-! ### Session configuration and construction -/

/-- Modelled from the spec: the configuration surface validated at session
creation (§6): `session_id`, `chunk_size`, `chunk_overlap`,
`auto_detect_communities`, and the credential requirement of the selected
default capability (`usesDefaultCapability` records whether an LLM-backed
default extractor/embedder is selected, in which case `llm_api_key` is
required). -/
structure SessionConfig where
  session_id : String
  chunk_size : Nat
  chunk_overlap : Nat
  auto_detect_communities : Bool
  usesDefaultCapability : Bool
  llm_api_key : Option String
deriving DecidableEq

/-- Modelled from the spec: the ConfigurationError taxonomy (§7) — empty
session id, missing credential for a default capability, overlap ≥ chunk
size. -/
inductive ConfigurationError where
  | emptySessionId
  | missingCredential
  | overlapNotLessThanChunkSize
deriving DecidableEq

/-- Modelled from the spec: session construction (§6, §7) — configuration
is validated synchronously at construction; an invalid configuration
yields a ConfigurationError and no session, so no document can have been
processed.  A valid configuration yields a fresh empty session. -/
def mkSession (E : Type) (cfg : SessionConfig) : Except ConfigurationError (SessionState E) :=
  if cfg.session_id = "" then .error .emptySessionId
  else if cfg.usesDefaultCapability ∧ cfg.llm_api_key = none then .error .missingCredential
  else if cfg.chunk_size ≤ cfg.chunk_overlap then .error .overlapNotLessThanChunkSize
  else .ok
    { sessionId := cfg.session_id
      entities := []
      textUnits := []
      communities := []
      stats := ⟨0, 0, 0, 0, 0⟩ }

/-- A concrete invalid configuration (`chunk_overlap ≥ chunk_size`) used to
witness the configuration-validation theorem. -/
def cfgBad : SessionConfig :=
  { session_id := "demo"
    chunk_size := 128
    chunk_overlap := 256
    auto_detect_communities := false
    usesDefaultCapability := false
    llm_api_key := none }

/-- A concrete extraction batch used to witness the graph-builder
invariant theorem. -/
def xsW : List ExtractedEntity :=
  [{ title := "Ada Lovelace", type := "Person", description := "a person" }]

/-! ### Chunker and indexing pipeline -/

/-- Modelled from the spec: the chunker (§4.1) — split a character sequence
into pieces of at most `size` characters, each starting `step` characters
after its predecessor (`step = size - overlap`), covering the whole input.
The sentence-boundary preference of §4.1 is a soft heuristic inside the
bounded window and is not modelled; a zero step (overlap ≥ size, rejected
at configuration time) degenerates to a single chunk. -/
def chunkChars (size step : Nat) (cs : List Char) : List (List Char) :=
  if step = 0 then [cs]
  else if cs.length ≤ size then [cs]
  else cs.take size :: chunkChars size step (cs.drop step)
termination_by cs.length
decreasing_by simp_all [List.length_drop]; omega

/-- Modelled from the spec: document chunking into text-unit contents. -/
def chunkText (size overlap : Nat) (doc : String) : List String :=
  (chunkChars size (size - overlap) doc.data).map String.mk

/-- Modelled from the spec: indexing one document into a session (§2, §6) —
chunk it, run the pluggable extractor on every text unit, embed the units,
merge all extractions into the graph, and update the statistics.
Community detection is not modelled (no claim concerns its effect on the
pipeline). -/
def processDocument {E : Type}
    (extractor : String → List ExtractedEntity × List ExtractedRelationship)
    (embedFn : String → E) (maxLen : Nat) (cfg : SessionConfig)
    (s : SessionState E) (doc : String) : SessionState E :=
  let units := chunkText cfg.chunk_size cfg.chunk_overlap doc
  let docId := s.stats.documents_indexed
  let newUnits := units.enum.map fun p =>
    ({ id := s.textUnits.length + p.1
       docId := docId
       seqIndex := p.1
       content := p.2
       embedding := embedFn p.2 } : TextUnit E)
  let exs := units.map extractor
  let ents := (exs.map Prod.fst).flatten
  let rels := (exs.map Prod.snd).flatten
  { s with
    entities := mergeEntities embedFn maxLen s.entities ents
    textUnits := s.textUnits ++ newUnits
    stats :=
      { s.stats with
        documents_indexed := s.stats.documents_indexed + 1
        text_units_created := s.stats.text_units_created + units.length
        entities_extracted := s.stats.entities_extracted + ents.length
        relationships_extracted := s.stats.relationships_extracted + rels.length } }

/-- Split a list into consecutive batches of `n` elements (the last one may
be shorter); a zero batch size degenerates to a single batch. -/
def toBatches {α : Type} (n : Nat) (l : List α) : List (List α) :=
  if n = 0 then [l]
  else if l.isEmpty then []
  else l.take n :: toBatches n (l.drop n)
termination_by l.length
decreasing_by
  simp only [List.length_drop]
  have hne : l ≠ [] := by simpa [List.isEmpty_iff] using (by assumption : ¬l.isEmpty = true)
  have : 0 < l.length := List.length_pos.mpr hne
  omega

/-- Modelled from the spec: `index_documents(documents, batch_size)` (§6) —
process the documents in batches of the given size and return the updated
session together with the cumulative counts of this call (the difference
between the session statistics after and before). -/
def indexDocuments {E : Type}
    (extractor : String → List ExtractedEntity × List ExtractedRelationship)
    (embedFn : String → E) (maxLen : Nat) (cfg : SessionConfig)
    (s : SessionState E) (docs : List String) (batch_size : Nat) :
    SessionState E × IndexStats :=
  let s' := (toBatches batch_size docs).foldl
    (fun st batch => batch.foldl (processDocument extractor embedFn maxLen cfg) st) s
  (s',
    { documents_indexed := s'.stats.documents_indexed - s.stats.documents_indexed
      text_units_created := s'.stats.text_units_created - s.stats.text_units_created
      entities_extracted := s'.stats.entities_extracted - s.stats.entities_extracted
      relationships_extracted :=
        s'.stats.relationships_extracted - s.stats.relationships_extracted
      communities_detected := s'.stats.communities_detected - s.stats.communities_detected })

/-! ### Query engine

Modelled from the spec (§4.5): the query embedding is computed once; each
facet is scored by cosine similarity against the query embedding, sorted
descending by score with the documented tie-break order, and truncated to
`top_k`; a disabled facet flag gates its computation entirely and yields an
empty sequence.  Scores are real numbers; end-to-end execution time is
real time and is not modelled. -/

/-- A ranked result item carrying its similarity score. -/
structure ScoredItem (β : Type) where
  item : β
  score : ℝ

/-- Modelled from the spec: a QueryResult (§3) — ranked entities, text
units and communities, each carrying a similarity score. -/
structure EngineQueryResult (E : Type) where
  entities : List (ScoredItem (Entity E))
  textUnits : List (ScoredItem (TextUnit E))
  communities : List (ScoredItem Community)

/-- Modelled from the spec: cosine similarity between two embedding
vectors, as the inner product divided by the product of the norms (0 when
a norm is 0, by the conventions of real division). -/
noncomputable def cosineSim {n : Nat} (x y : EuclideanSpace ℝ (Fin n)) : ℝ :=
  (inner x y : ℝ) / (‖x‖ * ‖y‖)

/-- The entity ranking order (§4.5): descending score, ties broken by
higher occurrence count, then lexical order of title. -/
def entOrder {E : Type} (a b : ScoredItem (Entity E)) : Prop :=
  b.score < a.score ∨
    (a.score = b.score ∧
      (b.item.occurrence < a.item.occurrence ∨
        (a.item.occurrence = b.item.occurrence ∧ a.item.title ≤ b.item.title)))

/-- The text-unit ranking order (§4.5): descending score, ties broken by
text-unit id. -/
def tuOrder {E : Type} (a b : ScoredItem (TextUnit E)) : Prop :=
  b.score < a.score ∨ (a.score = b.score ∧ a.item.id ≤ b.item.id)

/-- The community ranking order (§4.5): descending score. -/
def commOrder (a b : ScoredItem Community) : Prop :=
  b.score ≤ a.score

/-- Score a facet's items, sort by the facet's order, keep the `top_k`
highest. -/
noncomputable def rankBy {β : Type} (r : ScoredItem β → ScoredItem β → Prop)
    (score : β → ℝ) (items : List β) (k : Nat) : List (ScoredItem β) :=
  (@List.insertionSort _ r (fun x y => Classical.dec (r x y))
    (items.map fun b => ⟨b, score b⟩)).take k

/-- Modelled from the spec: `query` (§4.5, §6) — compute the query
embedding once, then rank each enabled facet; a disabled facet is not
scored and returns an empty sequence. -/
noncomputable def runQuery {E : Type} (sim : E → E → ℝ) (embedQ : String → E)
    (s : SessionState E) (qtext : String) (k : Nat)
    (includeEntities includeTextUnits includeCommunities : Bool) :
    EngineQueryResult E :=
  let qe := embedQ qtext
  { entities :=
      if includeEntities then
        rankBy entOrder (fun en => sim qe en.embedding) s.entities k
      else []
    textUnits :=
      if includeTextUnits then
        rankBy tuOrder (fun tu => sim qe tu.embedding) s.textUnits k
      else []
    communities :=
      if includeCommunities then
        rankBy commOrder (fun c => sim qe (embedQ c.summary)) s.communities k
      else [] }

/-- The entity ranking order is total. -/
instance entOrder_total {E : Type} : IsTotal (ScoredItem (Entity E)) entOrder where
  total a b := by
    rcases lt_trichotomy a.score b.score with h | h | h
    · exact Or.inr (Or.inl h)
    · rcases lt_trichotomy a.item.occurrence b.item.occurrence with h2 | h2 | h2
      · exact Or.inr (Or.inr ⟨h.symm, Or.inl h2⟩)
      · rcases le_total a.item.title b.item.title with h3 | h3
        · exact Or.inl (Or.inr ⟨h, Or.inr ⟨h2, h3⟩⟩)
        · exact Or.inr (Or.inr ⟨h.symm, Or.inr ⟨h2.symm, h3⟩⟩)
      · exact Or.inl (Or.inr ⟨h, Or.inl h2⟩)
    · exact Or.inl (Or.inl h)

/-- The entity ranking order is transitive. -/
instance entOrder_trans {E : Type} : IsTrans (ScoredItem (Entity E)) entOrder where
  trans a b c hab hbc := by
    rcases hab with h1 | ⟨he1, h1⟩
    · rcases hbc with h2 | ⟨he2, h2⟩
      · exact Or.inl (h2.trans h1)
      · exact Or.inl (he2.symm.trans_lt h1)
    · rcases hbc with h2 | ⟨he2, h2⟩
      · exact Or.inl (h2.trans_eq he1.symm)
      · refine Or.inr ⟨he1.trans he2, ?_⟩
        rcases h1 with o1 | ⟨oe1, t1⟩
        · rcases h2 with o2 | ⟨oe2, t2⟩
          · exact Or.inl (o2.trans o1)
          · exact Or.inl (oe2.symm.trans_lt o1)
        · rcases h2 with o2 | ⟨oe2, t2⟩
          · exact Or.inl (o2.trans_eq oe1.symm)
          · exact Or.inr ⟨oe1.trans oe2, t1.trans t2⟩

/-- The text-unit ranking order is total. -/
instance tuOrder_total {E : Type} : IsTotal (ScoredItem (TextUnit E)) tuOrder where
  total a b := by
    rcases lt_trichotomy a.score b.score with h | h | h
    · exact Or.inr (Or.inl h)
    · rcases le_total a.item.id b.item.id with h2 | h2
      · exact Or.inl (Or.inr ⟨h, h2⟩)
      · exact Or.inr (Or.inr ⟨h.symm, h2⟩)
    · exact Or.inl (Or.inl h)

/-- The text-unit ranking order is transitive. -/
instance tuOrder_trans {E : Type} : IsTrans (ScoredItem (TextUnit E)) tuOrder where
  trans a b c hab hbc := by
    rcases hab with h1 | ⟨he1, h1⟩
    · rcases hbc with h2 | ⟨he2, h2⟩
      · exact Or.inl (h2.trans h1)
      · exact Or.inl (he2.symm.trans_lt h1)
    · rcases hbc with h2 | ⟨he2, h2⟩
      · exact Or.inl (h2.trans_eq he1.symm)
      · exact Or.inr ⟨he1.trans he2, h1.trans h2⟩

/-- The community ranking order is total. -/
instance commOrder_total : IsTotal (ScoredItem Community) commOrder where
  total a b := le_total b.score a.score

/-- The community ranking order is transitive. -/
instance commOrder_trans : IsTrans (ScoredItem Community) commOrder where
  trans _ _ _ h1 h2 := h2.trans h1

/-! ## Theorems -/

/-- Each vector produced by `DummyEmbedder.embedVec` has exactly
`dimensions` components: the chunk loop contributes at most `dimensions`
components, the padding loop fills up to `dimensions`, and the final
truncation cuts back to `dimensions`. -/
theorem DummyEmbedder.length_embedVec {α : Type} (unpack : List Nat → α) (zero : α)
    (e : DummyEmbedder) (hb : List Nat) :
    (e.embedVec unpack zero hb).length = e.dimensions := by
  simp only [DummyEmbedder.embedVec, List.length_take, List.length_append,
    List.length_replicate, List.length_map, List.length_range]
  omega

/-- C1: for every list of input texts and every `DummyEmbedder` instance,
`embed` returns exactly one vector per input text, in the same order as
the inputs (the result has the same length and its i-th element is the
embedding of the i-th text), and every returned vector has length equal to
the instance's `dimensions` value. -/
theorem embed_one_vector_per_text_fixed_dim {α : Type} (unpack : List Nat → α)
    (zero : α) (hash : String → List Nat) (e : DummyEmbedder) (texts : List String) :
    (e.embed unpack zero hash texts).length = texts.length ∧
    (∀ i : Nat, (e.embed unpack zero hash texts)[i]? =
      (texts[i]?).map fun t => e.embedVec unpack zero (hash t)) ∧
    (e.embed unpack zero hash texts).Forall fun v => v.length = e.dimensions := by
  refine ⟨by simp [DummyEmbedder.embed], fun i => by simp [DummyEmbedder.embed], ?_⟩
  rw [List.forall_iff_forall_mem]
  intro v hv
  simp only [DummyEmbedder.embed, List.mem_map] at hv
  obtain ⟨t, -, rfl⟩ := hv
  exact DummyEmbedder.length_embedVec unpack zero e (hash t)

/-- C2: the embedder is deterministic — two calls of `embed` on the same
instance with equal input batches return equal results (the model is a
pure function of the instance's `dimensions` and the input texts; the
source reads no other state). -/
theorem embed_deterministic {α : Type} (unpack : List Nat → α) (zero : α)
    (hash : String → List Nat) (e : DummyEmbedder) (ts1 ts2 : List String)
    (h : ts1 = ts2) :
    e.embed unpack zero hash ts1 = e.embed unpack zero hash ts2 := by
  rw [h]

/-- Witness for C2 at a concrete instance and batch. -/
theorem embed_deterministic_witness :
    (["hello"] = ["hello"]) ∧
    DummyEmbedder.embed (fun bs => bs.length) 0 (fun _ => [7, 7]) ⟨4⟩ ["hello"] =
      DummyEmbedder.embed (fun bs => bs.length) 0 (fun _ => [7, 7]) ⟨4⟩ ["hello"] :=
  ⟨rfl, embed_deterministic _ _ _ _ _ _ rfl⟩

/-- C3: `embed_single` is `embed` on a one-element batch — for every text,
`embed([t])` is exactly the one-element list holding `embed_single(t)`. -/
theorem embed_single_is_embed_on_singleton {α : Type} (unpack : List Nat → α)
    (zero : α) (hash : String → List Nat) (e : DummyEmbedder) (t : String) :
    e.embed unpack zero hash [t] = [e.embed_single unpack zero hash t] := rfl

/-- C4: `SimpleRegexExtractor.extract` is a pure function of its input
text — two calls with the same text return equal (entities, relationships)
results (the model is a function of the text alone; the source touches no
shared mutable state, only local lists). -/
theorem extract_pure (t1 t2 : String) (h : t1 = t2) :
    SimpleRegexExtractor.extract t1 = SimpleRegexExtractor.extract t2 := by
  rw [h]

/-- Witness for C4 at a concrete text. -/
theorem extract_pure_witness :
    ("Ada Lovelace wrote in 1843" : String) = ("Ada Lovelace wrote in 1843" : String) ∧
    SimpleRegexExtractor.extract ("Ada Lovelace wrote in 1843") =
      SimpleRegexExtractor.extract ("Ada Lovelace wrote in 1843") :=
  ⟨rfl, extract_pure _ _ rfl⟩

/-! ### Soundness of the regex-scan model: every match is a factor of the
scanned text, so the `person in text` containment test always succeeds for
titles the scan produced. -/

/-- A successful `matchNamePart` splits its input. -/
theorem matchNamePart_append (cs m r : List Char)
    (h : matchNamePart cs = some (m, r)) : m ++ r = cs := by
  cases cs with
  | nil => simp [matchNamePart] at h
  | cons c t =>
    rw [matchNamePart] at h
    split at h
    · simp only [Option.some.injEq, Prod.mk.injEq] at h
      obtain ⟨hm, hr⟩ := h
      subst hm hr
      simp [List.takeWhile_append_dropWhile]
    · exact absurd h (by simp)

/-- A successful `matchPerson` splits its input. -/
theorem matchPerson_append (b : Bool) (cs m r : List Char)
    (h : matchPerson b cs = some (m, r)) : m ++ r = cs := by
  cases b with
  | true => simp [matchPerson] at h
  | false =>
    rw [matchPerson] at h
    cases hm1 : matchNamePart cs with
    | none => rw [hm1] at h; simp at h
    | some pr1 =>
      obtain ⟨m1, r1⟩ := pr1
      rw [hm1] at h
      cases r1 with
      | nil => simp at h
      | cons c t2 =>
        by_cases hc : c = ' '
        · simp only [hc, if_pos rfl] at h
          cases hm2 : matchNamePart t2 with
          | none => rw [hm2] at h; simp at h
          | some pr2 =>
            obtain ⟨m2, r2⟩ := pr2
            rw [hm2] at h
            by_cases hbd : (r2.head?.all fun ch => !(isWordChar ch)) = true
            · simp only [hbd, if_true, Option.some.injEq, Prod.mk.injEq] at h
              obtain ⟨hm, hr⟩ := h
              have h2 : m2 ++ r2 = t2 := matchNamePart_append _ _ _ hm2
              have h1 : m1 ++ (' ' :: t2) = cs := hc ▸ matchNamePart_append _ _ _ hm1
              subst hm hr
              rw [List.append_assoc, List.cons_append, h2]
              exact h1
            · simp [hbd] at h
        · simp [hc] at h

/-- A successful `matchYear` splits its input. -/
theorem matchYear_append (b : Bool) (cs m r : List Char)
    (h : matchYear b cs = some (m, r)) : m ++ r = cs := by
  cases b with
  | true => simp [matchYear] at h
  | false =>
    match cs, h with
    | [], h => simp [matchYear] at h
    | [c1], h => simp [matchYear] at h
    | [c1, c2], h => simp [matchYear] at h
    | [c1, c2, c3], h => simp [matchYear] at h
    | c1 :: c2 :: c3 :: c4 :: rest, h => ?_
    rw [matchYear] at h
    split at h
    · simp only [Option.some.injEq, Prod.mk.injEq] at h
      obtain ⟨hm, hr⟩ := h
      subst hm hr
      rfl
    · simp at h

/-- Every match produced by the findall scan is a contiguous factor of the
scanned character sequence. -/
theorem findAllAux_isFactor (mf : Bool → List Char → Option (List Char × List Char))
    (hmf : ∀ b cs mt rest, mf b cs = some (mt, rest) → mt ++ rest = cs) :
    ∀ (fuel : Nat) (b : Bool) (cs mt : List Char),
      mt ∈ findAllAux mf fuel b cs → mt <:+: cs := by
  intro fuel
  induction fuel with
  | zero => intro b cs mt h; simp [findAllAux] at h
  | succ n ih =>
    intro b cs mt h
    cases cs with
    | nil => simp [findAllAux] at h
    | cons c t =>
      rw [findAllAux] at h
      cases hm : mf b (c :: t) with
      | none =>
        rw [hm] at h
        exact (ih _ _ _ h).trans (List.suffix_cons c t).isInfix
      | some pr =>
        obtain ⟨mt0, rest⟩ := pr
        rw [hm] at h
        rcases List.mem_cons.mp h with rfl | hmem
        · exact ⟨[], rest, by simpa using hmf _ _ _ _ hm⟩
        · have hr : rest <:+ c :: t := ⟨mt0, hmf _ _ _ _ hm⟩
          exact (ih _ _ _ hmem).trans hr.isInfix

/-- Every person title the extractor finds occurs in the text. -/
theorem personTitles_isFactor (text : String) :
    ∀ p ∈ personTitles text, p.data <:+: text.data := by
  intro p hp
  simp only [personTitles, List.mem_dedup, List.mem_map] at hp
  obtain ⟨mt, hmt, rfl⟩ := hp
  exact findAllAux_isFactor matchPerson matchPerson_append _ _ _ _ hmt

/-- Every year title the extractor finds occurs in the text. -/
theorem yearTitles_isFactor (text : String) :
    ∀ y ∈ yearTitles text, y.data <:+: text.data := by
  intro y hy
  simp only [yearTitles, List.mem_dedup, List.mem_map] at hy
  obtain ⟨mt, hmt, rfl⟩ := hy
  exact findAllAux_isFactor matchYear matchYear_append _ _ _ _ hmt

/-- The entity list produced by `extract`: person entities then year
entities. -/
theorem extract_ents_eq (text : String) :
    (SimpleRegexExtractor.extract text).1 =
      ((personTitles text).map fun p =>
        { title := p, type := "Person", description := "Person mentioned: " ++ p }) ++
      ((yearTitles text).map fun y =>
        { title := y, type := "Year", description := "Year mentioned: " ++ y }) := rfl

/-- A `filterMap` whose function returns `some` on every element of the
list is a `map`. -/
theorem filterMap_eq_map_of_forall_some {α β : Type} (l : List α)
    (f : α → Option β) (g : α → β) (hfg : ∀ a ∈ l, f a = some (g a)) :
    l.filterMap f = l.map g := by
  induction l with
  | nil => rfl
  | cons a t ih =>
    rw [List.filterMap_cons, hfg a (List.mem_cons_self a t), List.map_cons,
      ih fun x hx => hfg x (List.mem_cons_of_mem a hx)]

/-- Pointwise-equal functions give equal `flatMap`s. -/
theorem flatMap_congr_of_forall {α β : Type} (l : List α) (f g : α → List β)
    (hfg : ∀ a ∈ l, f a = g a) : l.flatMap f = l.flatMap g := by
  induction l with
  | nil => rfl
  | cons a t ih =>
    rw [List.flatMap_cons, List.flatMap_cons, hfg a (List.mem_cons_self a t),
      ih fun x hx => hfg x (List.mem_cons_of_mem a hx)]

/-- The containment test in the relationship loop always succeeds, so the
relationship list is exactly one `mentionRel` per (person, year) pair. -/
theorem extract_rels_eq (text : String) :
    (SimpleRegexExtractor.extract text).2 =
      (personTitles text).flatMap fun p => (yearTitles text).map (mentionRel p) := by
  show ((personTitles text).flatMap fun p => (yearTitles text).filterMap fun y =>
      if p.data <:+: text.data ∧ y.data <:+: text.data then some (mentionRel p y)
      else none) = _
  refine flatMap_congr_of_forall _ _ _ fun p hp => ?_
  refine filterMap_eq_map_of_forall_some _ _ _ fun y hy => ?_
  rw [if_pos ⟨personTitles_isFactor text p hp, yearTitles_isFactor text y hy⟩]

/-- `countP` distributes over `flatMap` as a sum. -/
theorem countP_flatMap_eq_sum {α β : Type} (l : List α) (f : α → List β)
    (p : β → Bool) :
    ((l.flatMap f).countP p : Nat) = (l.map fun a => (f a).countP p).sum := by
  induction l with
  | nil => rfl
  | cons a t ih => simp [List.flatMap_cons, List.countP_append, ih]

/-- Summing the indicator of one value over a duplicate-free list that
holds the value gives 1. -/
theorem sum_indicator_eq_one {α : Type} [DecidableEq α] (l : List α) (a : α)
    (hnd : l.Nodup) (ha : a ∈ l) :
    (l.map fun x => if x = a then 1 else 0).sum = 1 := by
  induction l with
  | nil => simp at ha
  | cons x t ih =>
    rw [List.nodup_cons] at hnd
    by_cases hxa : x = a
    · subst hxa
      have hz : (t.map fun y => if y = x then 1 else 0).sum = 0 := by
        rw [List.sum_eq_zero]
        intro n hn
        simp only [List.mem_map] at hn
        obtain ⟨y, hyt, rfl⟩ := hn
        have hyx : y ≠ x := fun h => hnd.1 (h ▸ hyt)
        simp [hyx]
      simp [hz]
    · have hat : a ∈ t := by
        rcases List.mem_cons.mp ha with h | h
        · exact absurd h.symm hxa
        · exact h
      simp [hxa, ih hnd.2 hat]

/-- C10: every relationship returned by `SimpleRegexExtractor.extract` has
a Person entity of the same result as its source, a Year entity of the
same result as its target, relationship type "MENTIONED_IN" and weight
0.5; and for each (Person, Year) entity pair of the result exactly one
such relationship is produced — no relationship it emits can dangle. -/
theorem extract_relationships_wellformed (text : String) :
    (∀ r ∈ (SimpleRegexExtractor.extract text).2,
      r.relationship_type = "MENTIONED_IN" ∧ r.weight = 1 / 2 ∧
      (∃ e ∈ (SimpleRegexExtractor.extract text).1,
        e.type = "Person" ∧ e.title = r.source_title) ∧
      (∃ e ∈ (SimpleRegexExtractor.extract text).1,
        e.type = "Year" ∧ e.title = r.target_title)) ∧
    (∀ ep ∈ (SimpleRegexExtractor.extract text).1, ep.type = "Person" →
      ∀ ey ∈ (SimpleRegexExtractor.extract text).1, ey.type = "Year" →
        ((SimpleRegexExtractor.extract text).2.countP fun r =>
          r.source_title == ep.title && r.target_title == ey.title) = 1) := by
  constructor
  · intro r hr
    rw [extract_rels_eq, List.mem_flatMap] at hr
    obtain ⟨p, hp, hr⟩ := hr
    rw [List.mem_map] at hr
    obtain ⟨y, hy, rfl⟩ := hr
    refine ⟨rfl, rfl,
      ⟨{ title := p, type := "Person", description := "Person mentioned: " ++ p },
        ?_, rfl, rfl⟩,
      ⟨{ title := y, type := "Year", description := "Year mentioned: " ++ y },
        ?_, rfl, rfl⟩⟩
    · rw [extract_ents_eq]
      exact List.mem_append_left _ (List.mem_map.mpr ⟨p, hp, rfl⟩)
    · rw [extract_ents_eq]
      exact List.mem_append_right _ (List.mem_map.mpr ⟨y, hy, rfl⟩)
  · intro ep hep heptype ey hey heytype
    have hp : ep.title ∈ personTitles text := by
      rw [extract_ents_eq] at hep
      rcases List.mem_append.mp hep with h | h
      · rw [List.mem_map] at h
        obtain ⟨p, hpm, rfl⟩ := h
        exact hpm
      · rw [List.mem_map] at h
        obtain ⟨y, hym, rfl⟩ := h
        have hcontra : ("Year" : String) = "Person" := heptype
        exact absurd hcontra (by decide)
    have hy : ey.title ∈ yearTitles text := by
      rw [extract_ents_eq] at hey
      rcases List.mem_append.mp hey with h | h
      · rw [List.mem_map] at h
        obtain ⟨p, hpm, rfl⟩ := h
        have hcontra : ("Person" : String) = "Year" := heytype
        exact absurd hcontra (by decide)
      · rw [List.mem_map] at h
        obtain ⟨y, hym, rfl⟩ := h
        exact hym
    have hndp : (personTitles text).Nodup := List.nodup_dedup _
    have hndy : (yearTitles text).Nodup := List.nodup_dedup _
    rw [extract_rels_eq, countP_flatMap_eq_sum]
    have hmapeq : ((personTitles text).map fun p =>
        ((yearTitles text).map (mentionRel p)).countP fun r =>
          r.source_title == ep.title && r.target_title == ey.title) =
        (personTitles text).map fun p => if p = ep.title then 1 else 0 := by
      refine List.map_congr_left fun p hpmem => ?_
      rw [List.countP_map]
      by_cases hpe : p = ep.title
      · have hcp : ((yearTitles text).countP
            ((fun r => r.source_title == ep.title && r.target_title == ey.title) ∘ mentionRel p)) =
            (yearTitles text).count ey.title := by
          refine List.countP_congr fun y hym => ?_
          simp only [Function.comp_apply, mentionRel, Bool.and_eq_true, beq_iff_eq]
          constructor
          · rintro ⟨h1, h2⟩
            exact h2
          · intro h2
            exact ⟨hpe, h2⟩
        rw [hcp, List.count_eq_one_of_mem hndy hy, if_pos hpe]
      · have hcp : ((yearTitles text).countP
            ((fun r => r.source_title == ep.title && r.target_title == ey.title) ∘ mentionRel p)) = 0 := by
          rw [List.countP_eq_zero]
          intro y hym
          simp only [Function.comp_apply, mentionRel, Bool.and_eq_true, beq_iff_eq]
          rintro ⟨h1, h2⟩
          exact hpe h1
        rw [hcp, if_neg hpe]
    rw [hmapeq]
    exact sum_indicator_eq_one _ _ hndp hp

set_option maxRecDepth 4000 in
/-- Witness for C10 at a concrete text: the extractor finds a Person and a
Year in `tEx` and emits exactly one relationship for the pair. -/
theorem extract_relationships_wellformed_witness :
    (epA ∈ (SimpleRegexExtractor.extract tEx).1) ∧ epA.type = "Person" ∧
    (eyA ∈ (SimpleRegexExtractor.extract tEx).1) ∧ eyA.type = "Year" ∧
    ((SimpleRegexExtractor.extract tEx).2.countP fun r =>
      r.source_title == epA.title && r.target_title == eyA.title) = 1 :=
  ⟨by decide, rfl, by decide, rfl,
    (extract_relationships_wellformed tEx).2 epA (by decide) rfl eyA (by decide) rfl⟩

/-- C5: constructing a session with invalid or missing required
configuration — an empty `session_id`, a missing credential for a default
capability, or `chunk_overlap ≥ chunk_size` — yields a ConfigurationError
synchronously at session construction; no session state is produced, so no
document can have been processed. -/
theorem mkSession_rejects_invalid_config (E : Type) (cfg : SessionConfig)
    (h : cfg.session_id = "" ∨ (cfg.usesDefaultCapability ∧ cfg.llm_api_key = none) ∨
      cfg.chunk_size ≤ cfg.chunk_overlap) :
    (∃ err, mkSession E cfg = Except.error err) ∧
    ∀ s : SessionState E, mkSession E cfg ≠ Except.ok s := by
  have herr : ∃ err, mkSession E cfg = Except.error err := by
    unfold mkSession
    split_ifs with h1 h2 h3
    · exact ⟨.emptySessionId, rfl⟩
    · exact ⟨.missingCredential, rfl⟩
    · exact ⟨.overlapNotLessThanChunkSize, rfl⟩
    · rcases h with h | h | h
      · exact absurd h h1
      · exact absurd h h2
      · exact absurd h h3
  obtain ⟨err, herr'⟩ := herr
  exact ⟨⟨err, herr'⟩, fun s hok => by rw [herr'] at hok; exact Except.noConfusion hok⟩

/-- Witness for C5: a configuration with `chunk_overlap ≥ chunk_size` is
rejected at construction. -/
theorem mkSession_rejects_invalid_config_witness :
    (cfgBad.session_id = "" ∨ (cfgBad.usesDefaultCapability ∧ cfgBad.llm_api_key = none) ∨
      cfgBad.chunk_size ≤ cfgBad.chunk_overlap) ∧
    ((∃ err, mkSession Unit cfgBad = Except.error err) ∧
      ∀ s : SessionState Unit, mkSession Unit cfgBad ≠ Except.ok s) :=
  ⟨Or.inr (Or.inr (by decide)),
    mkSession_rejects_invalid_config Unit cfgBad (Or.inr (Or.inr (by decide)))⟩

/-- The batches produced by `toBatches` concatenate back to the input. -/
theorem flatten_toBatches {α : Type} (n : Nat) (l : List α) :
    (toBatches n l).flatten = l := by
  by_cases hn : n = 0
  · rw [toBatches]
    simp [hn]
  · suffices h : ∀ (len : Nat) (l : List α), l.length = len → (toBatches n l).flatten = l from
      h l.length l rfl
    intro len
    induction len using Nat.strong_induction_on with
    | _ len ih =>
      intro l hlen
      rw [toBatches, if_neg hn]
      by_cases he : l.isEmpty
      · rw [if_pos he]
        rw [List.isEmpty_iff] at he
        simp [he]
      · rw [if_neg he]
        have hne : l ≠ [] := by simpa [List.isEmpty_iff] using he
        have hpos := List.length_pos.mpr hne
        have hlt : (l.drop n).length < len := by
          rw [List.length_drop]
          omega
        rw [List.flatten_cons, ih _ hlt _ rfl, List.take_append_drop]

/-- Indexing one document increments `documents_indexed` by exactly one. -/
theorem processDocument_documents_indexed {E : Type}
    (extractor : String → List ExtractedEntity × List ExtractedRelationship)
    (embedFn : String → E) (maxLen : Nat) (cfg : SessionConfig)
    (s : SessionState E) (doc : String) :
    (processDocument extractor embedFn maxLen cfg s doc).stats.documents_indexed =
      s.stats.documents_indexed + 1 := rfl

/-- Indexing a batch adds its length to `documents_indexed`. -/
theorem foldl_processDocument_documents_indexed {E : Type}
    (extractor : String → List ExtractedEntity × List ExtractedRelationship)
    (embedFn : String → E) (maxLen : Nat) (cfg : SessionConfig) :
    ∀ (batch : List String) (s : SessionState E),
      (batch.foldl (processDocument extractor embedFn maxLen cfg) s).stats.documents_indexed =
        s.stats.documents_indexed + batch.length := by
  intro batch
  induction batch with
  | nil => intro s; simp
  | cons d t ih =>
    intro s
    rw [List.foldl_cons, ih, processDocument_documents_indexed, List.length_cons]
    omega

/-- Indexing a list of batches adds the total batch length to
`documents_indexed`. -/
theorem foldl_batches_documents_indexed {E : Type}
    (extractor : String → List ExtractedEntity × List ExtractedRelationship)
    (embedFn : String → E) (maxLen : Nat) (cfg : SessionConfig) :
    ∀ (batches : List (List String)) (s : SessionState E),
      ((batches.foldl
        (fun st batch => batch.foldl (processDocument extractor embedFn maxLen cfg) st)
        s).stats.documents_indexed) =
        s.stats.documents_indexed + batches.flatten.length := by
  intro batches
  induction batches with
  | nil => intro s; simp
  | cons b t ih =>
    intro s
    rw [List.foldl_cons, ih, foldl_processDocument_documents_indexed,
      List.flatten_cons, List.length_append]
    omega

/-- C7: for every batch of documents and every `batch_size`,
`index_documents` returns stats whose `documents_indexed` field equals the
number of documents submitted, independent of the batch size used to
process them. -/
theorem indexDocuments_counts_all_documents {E : Type}
    (extractor : String → List ExtractedEntity × List ExtractedRelationship)
    (embedFn : String → E) (maxLen : Nat) (cfg : SessionConfig)
    (s : SessionState E) (docs : List String) (batch_size : Nat)
    (_hne : docs ≠ []) :
    (indexDocuments extractor embedFn maxLen cfg s docs batch_size).2.documents_indexed =
      docs.length := by
  show ((toBatches batch_size docs).foldl
      (fun st batch => batch.foldl (processDocument extractor embedFn maxLen cfg) st)
      s).stats.documents_indexed - s.stats.documents_indexed = docs.length
  rw [foldl_batches_documents_indexed, flatten_toBatches]
  omega

/-- Witness for C7: three documents indexed with batch size 2 report
exactly three documents indexed. -/
theorem indexDocuments_counts_all_documents_witness :
    ((["a", "b", "c"] : List String) ≠ []) ∧
    (indexDocuments (fun _ => ([], [])) (fun _ => ()) 64 cfgBad
      { sessionId := "w"
        entities := []
        textUnits := []
        communities := []
        stats := ⟨0, 0, 0, 0, 0⟩ } ["a", "b", "c"] 2).2.documents_indexed =
      (["a", "b", "c"] : List String).length :=
  ⟨by decide,
    indexDocuments_counts_all_documents (fun _ => ([], [])) (fun _ => ()) 64 cfgBad
      _ _ 2 (by decide)⟩

/-! ### Graph-builder invariants -/

/-- `mergeInto` keeps the entity's identity key. -/
theorem entKey_mergeInto {E : Type} (embedFn : String → E) (maxLen : Nat)
    (en : Entity E) (x : ExtractedEntity) :
    entKey (mergeInto embedFn maxLen en x) = entKey en := rfl

/-- `freshEntity` carries the extraction's key. -/
theorem entKey_freshEntity {E : Type} (embedFn : String → E) (x : ExtractedEntity) :
    entKey (freshEntity (E := E) embedFn x) = exKey x := rfl

/-- Looking up the collision key after the collision update finds the
merged entity. -/
theorem findByKey_updateMap_self {E : Type} (embedFn : String → E) (maxLen : Nat)
    (x : ExtractedEntity) :
    ∀ g : List (Entity E),
      findByKey (g.map fun en =>
          if entKey en = exKey x then mergeInto embedFn maxLen en x else en) (exKey x) =
        (findByKey g (exKey x)).map fun en => mergeInto embedFn maxLen en x := by
  intro g
  induction g with
  | nil => rfl
  | cons en t ih =>
    by_cases h : entKey en = exKey x
    · simp only [List.map_cons, findByKey, if_pos h, entKey_mergeInto]
      rfl
    · simp only [List.map_cons, findByKey, if_neg h, ih]

/-- Looking up any other key after the collision update is unchanged. -/
theorem findByKey_updateMap_other {E : Type} (embedFn : String → E) (maxLen : Nat)
    (x : ExtractedEntity) (k : String × String) (hk : k ≠ exKey x) :
    ∀ g : List (Entity E),
      findByKey (g.map fun en =>
          if entKey en = exKey x then mergeInto embedFn maxLen en x else en) k =
        findByKey g k := by
  intro g
  induction g with
  | nil => rfl
  | cons en t ih =>
    by_cases h : entKey en = exKey x
    · have hne : ¬(entKey en = k) := fun he => hk (he ▸ h)
      simp only [List.map_cons, findByKey, if_pos h, entKey_mergeInto, if_neg hne, ih]
    · simp only [List.map_cons, findByKey, if_neg h, ih]

/-- Lookup distributes over appending. -/
theorem findByKey_append {E : Type} (k : String × String) (l : List (Entity E)) :
    ∀ g : List (Entity E),
      findByKey (g ++ l) k =
        match findByKey g k with
        | some en => some en
        | none => findByKey l k := by
  intro g
  induction g with
  | nil => rfl
  | cons en t ih =>
    by_cases h : entKey en = k
    · simp only [List.cons_append, findByKey, if_pos h]
    · simp only [List.cons_append, findByKey, if_neg h, List.append_eq, ih]

/-- Lookup of the upserted key: the merged or fresh entity. -/
theorem findByKey_upsert_self {E : Type} (embedFn : String → E) (maxLen : Nat)
    (g : List (Entity E)) (x : ExtractedEntity) :
    findByKey (upsertEntity embedFn maxLen g x) (exKey x) =
      match findByKey g (exKey x) with
      | some en => some (mergeInto embedFn maxLen en x)
      | none => some (freshEntity embedFn x) := by
  unfold upsertEntity
  cases hf : findByKey g (exKey x) with
  | some en =>
    rw [if_pos (by simp), findByKey_updateMap_self, hf]
    rfl
  | none =>
    rw [if_neg (by simp), findByKey_append, hf]
    simp [findByKey, entKey_freshEntity]

/-- Lookup of any other key is unchanged by an upsert. -/
theorem findByKey_upsert_other {E : Type} (embedFn : String → E) (maxLen : Nat)
    (g : List (Entity E)) (x : ExtractedEntity) (k : String × String)
    (hk : k ≠ exKey x) :
    findByKey (upsertEntity embedFn maxLen g x) k = findByKey g k := by
  unfold upsertEntity
  by_cases hs : (findByKey g (exKey x)).isSome
  · rw [if_pos hs, findByKey_updateMap_other embedFn maxLen x k hk]
  · rw [if_neg hs, findByKey_append]
    cases hg : findByKey g k with
    | some en => rfl
    | none =>
      have hne : ¬(entKey (freshEntity (E := E) embedFn x) = k) := by
        rw [entKey_freshEntity]
        exact fun he => hk he.symm
      simp [findByKey, hne]

/-- An upsert increments the occurrence count recorded for its own key and
leaves every other key's count unchanged. -/
theorem occOf_upsert {E : Type} (embedFn : String → E) (maxLen : Nat)
    (g : List (Entity E)) (x : ExtractedEntity) (k : String × String) :
    occOf (upsertEntity embedFn maxLen g x) k =
      if exKey x = k then occOf g k + 1 else occOf g k := by
  by_cases hk : exKey x = k
  · subst hk
    rw [if_pos rfl]
    unfold occOf
    rw [findByKey_upsert_self]
    cases hf : findByKey g (exKey x) with
    | some en => rfl
    | none => rfl
  · rw [if_neg hk]
    unfold occOf
    rw [findByKey_upsert_other embedFn maxLen g x k fun he => hk he.symm]

/-- Merging a batch adds, for every key, the number of extractions carrying
that key to its occurrence count. -/
theorem occOf_merge {E : Type} (embedFn : String → E) (maxLen : Nat)
    (k : String × String) :
    ∀ (xs : List ExtractedEntity) (g : List (Entity E)),
      occOf (mergeEntities embedFn maxLen g xs) k =
        occOf g k + xs.countP fun x => exKey x == k := by
  intro xs
  induction xs with
  | nil => intro g; simp [mergeEntities]
  | cons x t ih =>
    intro g
    show occOf (mergeEntities embedFn maxLen (upsertEntity embedFn maxLen g x) t) k = _
    rw [ih, occOf_upsert, List.countP_cons]
    by_cases h : exKey x = k
    · simp only [h, if_pos rfl, beq_self_eq_true, if_true]
      omega
    · have hb : (exKey x == k) = false := beq_eq_false_iff_ne.mpr h
      simp only [if_neg h, hb, Bool.false_eq_true, if_false]
      omega

/-- A key is found exactly when it occurs among the graph's keys. -/
theorem findByKey_isSome_iff {E : Type} (k : String × String) :
    ∀ g : List (Entity E), (findByKey g k).isSome ↔ k ∈ g.map entKey := by
  intro g
  induction g with
  | nil => simp [findByKey]
  | cons en t ih =>
    by_cases h : entKey en = k
    · simp [findByKey, h]
    · simp only [findByKey, if_neg h, List.map_cons, List.mem_cons, ih]
      constructor
      · exact fun hm => Or.inr hm
      · rintro (he | hm)
        · exact absurd he.symm h
        · exact hm

/-- An upsert on a key already present leaves the key list unchanged. -/
theorem map_entKey_upsert_isSome {E : Type} (embedFn : String → E) (maxLen : Nat)
    (g : List (Entity E)) (x : ExtractedEntity)
    (hs : (findByKey g (exKey x)).isSome) :
    (upsertEntity embedFn maxLen g x).map entKey = g.map entKey := by
  unfold upsertEntity
  rw [if_pos hs, List.map_map]
  refine List.map_congr_left fun en hen => ?_
  by_cases h : entKey en = exKey x
  · simp [Function.comp, h, entKey_mergeInto]
  · simp [Function.comp, h]

/-- An upsert on an absent key appends exactly that key. -/
theorem map_entKey_upsert_none {E : Type} (embedFn : String → E) (maxLen : Nat)
    (g : List (Entity E)) (x : ExtractedEntity)
    (hs : findByKey g (exKey x) = none) :
    (upsertEntity embedFn maxLen g x).map entKey = g.map entKey ++ [exKey x] := by
  unfold upsertEntity
  rw [if_neg (by simp [hs]), List.map_append]
  simp [entKey_freshEntity]

/-- An upsert preserves duplicate-freedom of the key list. -/
theorem nodup_keys_upsert {E : Type} (embedFn : String → E) (maxLen : Nat)
    (g : List (Entity E)) (x : ExtractedEntity)
    (hnd : (g.map entKey).Nodup) :
    ((upsertEntity embedFn maxLen g x).map entKey).Nodup := by
  cases hf : findByKey g (exKey x) with
  | some en =>
    rw [map_entKey_upsert_isSome embedFn maxLen g x (by simp [hf])]
    exact hnd
  | none =>
    rw [map_entKey_upsert_none embedFn maxLen g x hf]
    have hmem : exKey x ∉ g.map entKey := fun hm => by
      have := (findByKey_isSome_iff (exKey x) g).mpr hm
      rw [hf] at this
      simp at this
    simp [List.nodup_append, hnd, hmem]

/-- Merging preserves duplicate-freedom of the key list: at all times there
is at most one entity per key. -/
theorem nodup_keys_merge {E : Type} (embedFn : String → E) (maxLen : Nat) :
    ∀ (xs : List ExtractedEntity) (g : List (Entity E)),
      (g.map entKey).Nodup → ((mergeEntities embedFn maxLen g xs).map entKey).Nodup := by
  intro xs
  induction xs with
  | nil => intro g hnd; exact hnd
  | cons x t ih =>
    intro g hnd
    exact ih (upsertEntity embedFn maxLen g x) (nodup_keys_upsert embedFn maxLen g x hnd)

/-- An upsert never drops a key. -/
theorem isSome_findByKey_upsert_mono {E : Type} (embedFn : String → E) (maxLen : Nat)
    (g : List (Entity E)) (x : ExtractedEntity) (k : String × String)
    (hs : (findByKey g k).isSome) :
    (findByKey (upsertEntity embedFn maxLen g x) k).isSome := by
  by_cases hk : k = exKey x
  · subst hk
    rw [findByKey_upsert_self]
    cases hfx : findByKey g (exKey x) <;> rfl
  · rw [findByKey_upsert_other embedFn maxLen g x k hk]
    exact hs

/-- An upsert makes its own key present. -/
theorem isSome_findByKey_upsert_self {E : Type} (embedFn : String → E) (maxLen : Nat)
    (g : List (Entity E)) (x : ExtractedEntity) :
    (findByKey (upsertEntity embedFn maxLen g x) (exKey x)).isSome := by
  rw [findByKey_upsert_self]
  cases hfx : findByKey g (exKey x) <;> rfl

/-- A merge never drops a key. -/
theorem isSome_findByKey_merge_mono {E : Type} (embedFn : String → E) (maxLen : Nat)
    (k : String × String) :
    ∀ (xs : List ExtractedEntity) (g : List (Entity E)),
      (findByKey g k).isSome → (findByKey (mergeEntities embedFn maxLen g xs) k).isSome := by
  intro xs
  induction xs with
  | nil => intro g hs; exact hs
  | cons x t ih =>
    intro g hs
    exact ih _ (isSome_findByKey_upsert_mono embedFn maxLen g x k hs)

/-- After merging a batch, every key of the batch is present. -/
theorem isSome_findByKey_merge_of_mem {E : Type} (embedFn : String → E) (maxLen : Nat) :
    ∀ (xs : List ExtractedEntity) (g : List (Entity E)) (x : ExtractedEntity),
      x ∈ xs → (findByKey (mergeEntities embedFn maxLen g xs) (exKey x)).isSome := by
  intro xs
  induction xs with
  | nil => intro g x hx; simp at hx
  | cons y t ih =>
    intro g x hx
    rcases List.mem_cons.mp hx with rfl | hxt
    · exact isSome_findByKey_merge_mono embedFn maxLen (exKey x) t _
        (isSome_findByKey_upsert_self embedFn maxLen g x)
    · exact ih _ x hxt

/-- Merging a batch whose keys are all already present leaves the key list
unchanged: no duplicate entity is ever created for an existing key. -/
theorem map_entKey_merge_stable {E : Type} (embedFn : String → E) (maxLen : Nat) :
    ∀ (xs : List ExtractedEntity) (g : List (Entity E)),
      (∀ x ∈ xs, (findByKey g (exKey x)).isSome) →
      (mergeEntities embedFn maxLen g xs).map entKey = g.map entKey := by
  intro xs
  induction xs with
  | nil => intro g _; rfl
  | cons x t ih =>
    intro g hall
    have hx := hall x (List.mem_cons_self x t)
    have hstep : (upsertEntity embedFn maxLen g x).map entKey = g.map entKey :=
      map_entKey_upsert_isSome embedFn maxLen g x hx
    have hrest : ∀ y ∈ t, (findByKey (upsertEntity embedFn maxLen g x) (exKey y)).isSome :=
      fun y hy => isSome_findByKey_upsert_mono embedFn maxLen g x (exKey y)
        (hall y (List.mem_cons_of_mem x hy))
    show (mergeEntities embedFn maxLen (upsertEntity embedFn maxLen g x) t).map entKey = _
    rw [ih _ hrest, hstep]

/-- C8: within a session there is at all times exactly one Entity per
distinct (normalized title, type) key — merging keeps the key list
duplicate-free — and indexing the same content twice increments the
occurrence count of the existing entities and appends their evidence
rather than creating a duplicate Entity: re-merging the same batch leaves
the key list unchanged, strictly increases the occurrence count recorded
for each merged key, and a key collision stores the entity with occurrence
count + 1 and the evidence-appended description. -/
theorem entity_dedup_and_occurrence_accumulation {E : Type}
    (embedFn : String → E) (maxLen : Nat)
    (g : List (Entity E)) (xs : List ExtractedEntity)
    (hnd : (g.map entKey).Nodup) :
    ((mergeEntities embedFn maxLen g xs).map entKey).Nodup ∧
    (mergeEntities embedFn maxLen (mergeEntities embedFn maxLen g xs) xs).map entKey =
      (mergeEntities embedFn maxLen g xs).map entKey ∧
    (∀ x ∈ xs,
      (∃ en, findByKey (mergeEntities embedFn maxLen g xs) (exKey x) = some en) ∧
      occOf (mergeEntities embedFn maxLen (mergeEntities embedFn maxLen g xs) xs) (exKey x) >
        occOf (mergeEntities embedFn maxLen g xs) (exKey x)) ∧
    (∀ (x : ExtractedEntity) (en : Entity E),
      findByKey g (exKey x) = some en →
        findByKey (upsertEntity embedFn maxLen g x) (exKey x) =
          some (mergeInto embedFn maxLen en x) ∧
        (mergeInto embedFn maxLen en x).occurrence = en.occurrence + 1 ∧
        (mergeInto embedFn maxLen en x).description =
          appendEvidence maxLen en.description x.description) := by
  refine ⟨nodup_keys_merge embedFn maxLen xs g hnd, ?_, ?_, ?_⟩
  · exact map_entKey_merge_stable embedFn maxLen xs _
      fun x hx => isSome_findByKey_merge_of_mem embedFn maxLen xs g x hx
  · intro x hx
    constructor
    · exact Option.isSome_iff_exists.mp
        (isSome_findByKey_merge_of_mem embedFn maxLen xs g x hx)
    · rw [occOf_merge]
      have hpos : 0 < xs.countP fun y => exKey y == exKey x :=
        List.countP_pos_iff.mpr ⟨x, hx, by simp⟩
      omega
  · intro x en hf
    refine ⟨?_, rfl, rfl⟩
    rw [findByKey_upsert_self, hf]

/-- Witness for C8: merging a one-extraction batch twice into the empty
graph keeps exactly one entity key. -/
theorem entity_dedup_and_occurrence_accumulation_witness :
    ((([] : List (Entity Unit)).map entKey).Nodup) ∧
    (mergeEntities (fun _ => ()) 64 (mergeEntities (fun _ => ()) 64 [] xsW) xsW).map entKey =
      (mergeEntities (fun _ => ()) 64 ([] : List (Entity Unit)) xsW).map entKey :=
  ⟨by simp,
    (entity_dedup_and_occurrence_accumulation (fun _ => ()) 64 [] xsW (by simp)).2.1⟩

/-! ### Query-engine theorems -/

/-- C6: a disabled facet flag gates its facet entirely — for every query
text, `top_k` and session state, `include_entities = false` gives an empty
entity sequence, `include_text_units = false` an empty text-unit sequence,
and `include_communities = false` an empty community sequence; the
disabled facet's scoring is never invoked. -/
theorem facet_flags_gate_empty {E : Type} (sim : E → E → ℝ) (embedQ : String → E)
    (s : SessionState E) (qtext : String) (k : Nat) :
    (∀ it ic : Bool, (runQuery sim embedQ s qtext k false it ic).entities = []) ∧
    (∀ ie ic : Bool, (runQuery sim embedQ s qtext k ie false ic).textUnits = []) ∧
    (∀ ie it : Bool, (runQuery sim embedQ s qtext k ie it false).communities = []) :=
  ⟨fun _ _ => rfl, fun _ _ => rfl, fun _ _ => rfl⟩

/-- The ranked list of a facet is sorted by the facet's order. -/
theorem sorted_rankBy {β : Type} (r : ScoredItem β → ScoredItem β → Prop)
    [IsTotal (ScoredItem β) r] [IsTrans (ScoredItem β) r]
    (score : β → ℝ) (items : List β) (k : Nat) :
    List.Sorted r (rankBy r score items k) := by
  unfold rankBy
  refine List.Pairwise.sublist (List.take_sublist _ _) ?_
  exact @List.sorted_insertionSort _ r (fun x y => Classical.dec (r x y)) _ _ _

/-- Every ranked item is one of the scored inputs. -/
theorem rankBy_mem {β : Type} (r : ScoredItem β → ScoredItem β → Prop)
    (score : β → ℝ) (items : List β) (k : Nat) :
    ∀ x ∈ rankBy r score items k, ∃ b ∈ items, x = ⟨b, score b⟩ := by
  intro x hx
  unfold rankBy at hx
  have hx2 := List.mem_of_mem_take hx
  rw [List.mem_insertionSort, List.mem_map] at hx2
  obtain ⟨b, hb, rfl⟩ := hx2
  exact ⟨b, hb, rfl⟩

/-- Cosine similarity lies in [-1, 1] (Cauchy–Schwarz; a zero denominator
gives 0, also inside the range). -/
theorem cosineSim_bounds {n : Nat} (x y : EuclideanSpace ℝ (Fin n)) :
    -1 ≤ cosineSim x y ∧ cosineSim x y ≤ 1 :=
  abs_le.mp (abs_real_inner_div_norm_mul_norm_le_one x y)

/-- A facet whose scoring function is bounded yields only bounded scores. -/
theorem forall_bounded_facet {β : Type} (r : ScoredItem β → ScoredItem β → Prop)
    (score : β → ℝ) (items : List β) (k : Nat) (flag : Bool)
    (hs : ∀ b, -1 ≤ score b ∧ score b ≤ 1) :
    (if flag then rankBy r score items k else []).Forall fun x =>
      -1 ≤ x.score ∧ x.score ≤ 1 := by
  cases flag
  · simp
  · rw [if_pos rfl, List.forall_iff_forall_mem]
    intro x hx
    obtain ⟨b, _, rfl⟩ := rankBy_mem r score items k x hx
    exact hs b

/-- A facet is sorted by its order whatever its flag. -/
theorem sorted_facet {β : Type} (r : ScoredItem β → ScoredItem β → Prop)
    [IsTotal (ScoredItem β) r] [IsTrans (ScoredItem β) r]
    (score : β → ℝ) (items : List β) (k : Nat) (flag : Bool) :
    List.Sorted r (if flag then rankBy r score items k else []) := by
  cases flag
  · simp
  · rw [if_pos rfl]
    exact sorted_rankBy r score items k

/-- A list sorted by an order that refines descending scores has a
descending score sequence. -/
theorem sorted_scores_of_sorted {β : Type} (r : ScoredItem β → ScoredItem β → Prop)
    (l : List (ScoredItem β)) (hsorted : List.Sorted r l)
    (himp : ∀ a b : ScoredItem β, r a b → b.score ≤ a.score) :
    List.Sorted (fun a b : ℝ => b ≤ a) (l.map ScoredItem.score) := by
  rw [List.Sorted, List.pairwise_map]
  exact hsorted.imp fun h => himp _ _ h

/-- `entOrder` refines descending scores. -/
theorem entOrder_score_le {E : Type} (a b : ScoredItem (Entity E)) (h : entOrder a b) :
    b.score ≤ a.score := by
  rcases h with h | ⟨he, -⟩
  · exact h.le
  · exact he.ge

/-- `tuOrder` refines descending scores. -/
theorem tuOrder_score_le {E : Type} (a b : ScoredItem (TextUnit E)) (h : tuOrder a b) :
    b.score ≤ a.score := by
  rcases h with h | ⟨he, -⟩
  · exact h.le
  · exact he.ge

/-- C9: every similarity score attached to a returned entity, text unit or
community lies in [-1, 1], and each facet's result sequence is sorted in
descending order of score — entities with ties broken by higher occurrence
count then lexical order of title (`entOrder`), text units with ties broken
by id (`tuOrder`), communities by score (`commOrder`). -/
theorem query_scores_bounded_and_sorted (n : Nat)
    (embedQ : String → EuclideanSpace ℝ (Fin n))
    (s : SessionState (EuclideanSpace ℝ (Fin n))) (qtext : String) (k : Nat)
    (ie it ic : Bool) :
    ((runQuery cosineSim embedQ s qtext k ie it ic).entities.Forall fun x =>
      -1 ≤ x.score ∧ x.score ≤ 1) ∧
    ((runQuery cosineSim embedQ s qtext k ie it ic).textUnits.Forall fun x =>
      -1 ≤ x.score ∧ x.score ≤ 1) ∧
    ((runQuery cosineSim embedQ s qtext k ie it ic).communities.Forall fun x =>
      -1 ≤ x.score ∧ x.score ≤ 1) ∧
    List.Sorted entOrder (runQuery cosineSim embedQ s qtext k ie it ic).entities ∧
    List.Sorted tuOrder (runQuery cosineSim embedQ s qtext k ie it ic).textUnits ∧
    List.Sorted commOrder (runQuery cosineSim embedQ s qtext k ie it ic).communities ∧
    List.Sorted (fun a b : ℝ => b ≤ a)
      ((runQuery cosineSim embedQ s qtext k ie it ic).entities.map ScoredItem.score) ∧
    List.Sorted (fun a b : ℝ => b ≤ a)
      ((runQuery cosineSim embedQ s qtext k ie it ic).textUnits.map ScoredItem.score) ∧
    List.Sorted (fun a b : ℝ => b ≤ a)
      ((runQuery cosineSim embedQ s qtext k ie it ic).communities.map ScoredItem.score) := by
  have hent : (runQuery cosineSim embedQ s qtext k ie it ic).entities =
      if ie then
        rankBy entOrder (fun en => cosineSim (embedQ qtext) en.embedding) s.entities k
      else [] := rfl
  have htu : (runQuery cosineSim embedQ s qtext k ie it ic).textUnits =
      if it then
        rankBy tuOrder (fun tu => cosineSim (embedQ qtext) tu.embedding) s.textUnits k
      else [] := rfl
  have hcomm : (runQuery cosineSim embedQ s qtext k ie it ic).communities =
      if ic then
        rankBy commOrder (fun c => cosineSim (embedQ qtext) (embedQ c.summary))
          s.communities k
      else [] := rfl
  have hsent := sorted_facet entOrder
    (fun en => cosineSim (embedQ qtext) en.embedding) s.entities k ie
  have hstu := sorted_facet tuOrder
    (fun tu => cosineSim (embedQ qtext) tu.embedding) s.textUnits k it
  have hscomm := sorted_facet commOrder
    (fun c => cosineSim (embedQ qtext) (embedQ c.summary)) s.communities k ic
  refine ⟨?_, ?_, ?_, ?_, ?_, ?_, ?_, ?_, ?_⟩
  · rw [hent]
    exact forall_bounded_facet _ _ _ _ _ fun b => cosineSim_bounds _ _
  · rw [htu]
    exact forall_bounded_facet _ _ _ _ _ fun b => cosineSim_bounds _ _
  · rw [hcomm]
    exact forall_bounded_facet _ _ _ _ _ fun b => cosineSim_bounds _ _
  · rw [hent]
    exact hsent
  · rw [htu]
    exact hstu
  · rw [hcomm]
    exact hscomm
  · rw [hent]
    exact sorted_scores_of_sorted entOrder _ hsent entOrder_score_le
  · rw [htu]
    exact sorted_scores_of_sorted tuOrder _ hstu tuOrder_score_le
  · rw [hcomm]
    exact sorted_scores_of_sorted commOrder _ hscomm fun a b h => h

end GibRAM
